import Mathlib

/-
Verification of the BloomFilter implementation (BloomFilterHW.py).

The filter state mirrors the private attributes of the Python class:
size (__size), bv (__bv, the BitVector, modelled as a list of booleans),
numKeys (__numKeys), numHashes (__numHashes), numBitsSet (__numBitsSet).
The external hash source BitHash is modelled as an arbitrary function
hash : Key -> Nat -> Nat, deterministic in (key, seed), as the code only
requires.  Real-valued sizing arithmetic is modelled over the reals.
Bit-array reads are modelled with List.getD (default false) and writes with
List.set; separate theorems establish that every access made by insert and
find is in range on a well-formed filter, so the defaults are never exercised
on reachable states.
-/

namespace BloomFilterHW

/-- Truncation of a real number toward zero, as Python int() does. -/
noncomputable def truncInt (x : ℝ) : ℤ :=
  if 0 ≤ x then ⌊x⌋ else ⌈x⌉

/-- BloomFilter.__bitsNeeded: phi = 1 - p**(1/k); nBits = k / (1 - phi**(1/n));
return int(nBits). -/
noncomputable def bitsNeeded (numKeys numHashes : ℕ) (maxFalsePositive : ℝ) : ℤ :=
  truncInt ((numHashes : ℝ) /
    (1 - (1 - maxFalsePositive ^ ((1 : ℝ) / numHashes)) ^ ((1 : ℝ) / numKeys)))

/-- State of a BloomFilter object. -/
structure BloomFilter where
  size : ℕ
  bv : List Bool
  numKeys : ℕ
  numHashes : ℕ
  numBitsSet : ℕ
deriving DecidableEq

/-- A fresh filter with a given bit capacity: the BitVector of the requested
size starts all zero, and __numBitsSet starts at 0. -/
def initFilter (m numKeys numHashes : ℕ) : BloomFilter :=
  { size := m
    bv := List.replicate m false
    numKeys := numKeys
    numHashes := numHashes
    numBitsSet := 0 }

/-- BloomFilter.__init__: size is computed by __bitsNeeded (the BitVector
allocation forces it to a natural number), the bit vector starts all zero. -/
noncomputable def mkBloomFilter (numKeys numHashes : ℕ) (maxFalsePositive : ℝ) :
    BloomFilter :=
  initFilter (bitsNeeded numKeys numHashes maxFalsePositive).toNat numKeys numHashes

/-- The body of the insert loop at one index hv: if the bit is 0, set it and
increment the counter; otherwise leave the state unchanged. -/
def setBit (st : List Bool × ℕ) (hv : ℕ) : List Bool × ℕ :=
  if st.1.getD hv false = false then (st.1.set hv true, st.2 + 1) else st

/-- The insert loop of BloomFilter.insert: n remaining iterations, current
seed, and the (bit vector, counter) state.  Each iteration hashes the key with
the current seed, updates the bit at (hash mod size), and feeds the raw hash
value forward as the next seed. -/
def insertFrom {Key : Type} (hash : Key → ℕ → ℕ) (key : Key) (size : ℕ) :
    ℕ → ℕ → List Bool × ℕ → List Bool × ℕ
  | 0, _, st => st
  | n + 1, seed, st =>
      insertFrom hash key size n (hash key seed) (setBit st (hash key seed % size))

/-- BloomFilter.insert: run the loop for numHashes iterations starting from
seed 0, then store the updated bit vector and counter. -/
def BloomFilter.insert {Key : Type} (hash : Key → ℕ → ℕ) (bf : BloomFilter)
    (key : Key) : BloomFilter :=
  { bf with
    bv := (insertFrom hash key bf.size bf.numHashes 0 (bf.bv, bf.numBitsSet)).1
    numBitsSet := (insertFrom hash key bf.size bf.numHashes 0 (bf.bv, bf.numBitsSet)).2 }

/-- The find loop of BloomFilter.find: returns false as soon as a derived bit
is 0, true if all n remaining probes are 1; same seed chaining as insert. -/
def findFrom {Key : Type} (hash : Key → ℕ → ℕ) (key : Key) (size : ℕ)
    (bv : List Bool) : ℕ → ℕ → Bool
  | 0, _ => true
  | n + 1, seed =>
      if bv.getD (hash key seed % size) false = false then false
      else findFrom hash key size bv n (hash key seed)

/-- BloomFilter.find: run the probe loop for numHashes iterations from seed 0.
The Python method only reads the bit vector; it is a pure function of the
state here. -/
def BloomFilter.find {Key : Type} (hash : Key → ℕ → ℕ) (bf : BloomFilter)
    (key : Key) : Bool :=
  findFrom hash key bf.size bf.bv bf.numHashes 0

/-- BloomFilter.falsePositiveRate: (float(numBitsSet) / size) ** numHashes. -/
noncomputable def BloomFilter.falsePositiveRate (bf : BloomFilter) : ℝ :=
  ((bf.numBitsSet : ℝ) / (bf.size : ℝ)) ^ bf.numHashes

/-- BloomFilter.numBitsSet: the accessor just returns the cached counter. -/
def BloomFilter.numBitsSetQuery (bf : BloomFilter) : ℕ :=
  bf.numBitsSet

/-- Folding insert over a list of keys (how the demo driver uses the filter). -/
def insertList {Key : Type} (hash : Key → ℕ → ℕ) (bf : BloomFilter)
    (keys : List Key) : BloomFilter :=
  keys.foldl (fun b k => BloomFilter.insert hash b k) bf

/-- Modelled from the spec (section 4.2, Hash-Index Derivation): the chain of
seeds, seed_0 = 0 and seed_(i+1) = hash(key, seed_i), the raw hash output of
round i. -/
def seeds {Key : Type} (hash : Key → ℕ → ℕ) (key : Key) : ℕ → ℕ
  | 0 => 0
  | i + 1 => hash key (seeds hash key i)

/-- The list of bit indices visited by a loop of n probes starting at a given
seed: each entry is the hash output reduced mod size, and the raw output feeds
the next round. -/
def indexSeqFrom {Key : Type} (hash : Key → ℕ → ℕ) (key : Key) (size : ℕ) :
    ℕ → ℕ → List ℕ
  | 0, _ => []
  | n + 1, seed =>
      (hash key seed % size) :: indexSeqFrom hash key size n (hash key seed)

/-- The index sequence both insert and find derive for a key: k probes
starting from seed 0. -/
def indexSeq {Key : Type} (hash : Key → ℕ → ℕ) (key : Key) (size k : ℕ) :
    List ℕ :=
  indexSeqFrom hash key size k 0

/-- Well-formedness of a filter state: positive capacity, the bit vector has
exactly size entries, and the cached counter equals the exact number of set
bits.  This holds after construction with valid parameters and is preserved
by every operation. -/
def WF (bf : BloomFilter) : Prop :=
  0 < bf.size ∧ bf.bv.length = bf.size ∧ bf.numBitsSet = bf.bv.count true

instance (bf : BloomFilter) : Decidable (WF bf) := by
  unfold WF
  exact inferInstance

/-- Concrete hash function used to instantiate theorems on concrete inputs. -/
def wHash : ℕ → ℕ → ℕ :=
  fun key seed => key + 7 * seed + 1

lemma indexSeqFrom_length {Key : Type} (hash : Key → ℕ → ℕ) (key : Key)
    (size : ℕ) : ∀ (n seed : ℕ), (indexSeqFrom hash key size n seed).length = n
  | 0, _ => rfl
  | n + 1, seed => by
      simp [indexSeqFrom, indexSeqFrom_length hash key size n]

lemma indexSeqFrom_mem_lt {Key : Type} (hash : Key → ℕ → ℕ) (key : Key)
    {size : ℕ} (hpos : 0 < size) :
    ∀ (n seed : ℕ), ∀ hv ∈ indexSeqFrom hash key size n seed, hv < size
  | 0, _ => by simp [indexSeqFrom]
  | n + 1, seed => by
      intro hv hmem
      rcases List.mem_cons.mp hmem with h | h
      · exact h ▸ Nat.mod_lt _ hpos
      · exact indexSeqFrom_mem_lt hash key hpos n (hash key seed) hv h

lemma indexSeqFrom_seeds {Key : Type} (hash : Key → ℕ → ℕ) (key : Key)
    (size : ℕ) :
    ∀ (n i : ℕ), indexSeqFrom hash key size n (seeds hash key i)
      = (List.range n).map (fun j => hash key (seeds hash key (i + j)) % size)
  | 0, _ => rfl
  | n + 1, i => by
      have hstep : indexSeqFrom hash key size (n + 1) (seeds hash key i)
          = (hash key (seeds hash key i) % size)
            :: indexSeqFrom hash key size n (seeds hash key (i + 1)) := rfl
      rw [hstep, indexSeqFrom_seeds hash key size n (i + 1),
        List.range_succ_eq_map]
      rw [List.map_cons, List.map_map]
      refine congrArg₂ List.cons (by rw [Nat.add_zero]) ?_
      refine List.map_congr_left ?_
      intro j _
      show hash key (seeds hash key (i + 1 + j)) % size
          = hash key (seeds hash key (i + (j + 1))) % size
      rw [show i + 1 + j = i + (j + 1) by omega]

lemma indexSeq_eq_map {Key : Type} (hash : Key → ℕ → ℕ) (key : Key)
    (size k : ℕ) :
    indexSeq hash key size k
      = (List.range k).map (fun i => hash key (seeds hash key i) % size) := by
  have h := indexSeqFrom_seeds hash key size k 0
  simpa [indexSeq, seeds] using h

lemma insertFrom_eq_foldl {Key : Type} (hash : Key → ℕ → ℕ) (key : Key)
    (size : ℕ) :
    ∀ (n seed : ℕ) (st : List Bool × ℕ),
      insertFrom hash key size n seed st
        = (indexSeqFrom hash key size n seed).foldl setBit st
  | 0, _, _ => rfl
  | n + 1, seed, st => by
      show insertFrom hash key size n (hash key seed)
          (setBit st (hash key seed % size)) = _
      rw [insertFrom_eq_foldl hash key size n]
      rfl

lemma findFrom_eq_all {Key : Type} (hash : Key → ℕ → ℕ) (key : Key)
    (size : ℕ) (bv : List Bool) :
    ∀ (n seed : ℕ),
      findFrom hash key size bv n seed
        = (indexSeqFrom hash key size n seed).all (fun hv => bv.getD hv false)
  | 0, _ => rfl
  | n + 1, seed => by
      show (if bv.getD (hash key seed % size) false = false then false
        else findFrom hash key size bv n (hash key seed)) = _
      rw [findFrom_eq_all hash key size bv n,
        show indexSeqFrom hash key size (n + 1) seed
          = (hash key seed % size)
            :: indexSeqFrom hash key size n (hash key seed) from rfl,
        List.all_cons]
      cases hb : bv.getD (hash key seed % size) false <;> simp [hb]

lemma getD_set_self (bv : List Bool) :
    ∀ (hv : ℕ), hv < bv.length → (bv.set hv true).getD hv false = true := by
  induction bv with
  | nil => intro hv h; simp at h
  | cons a l ih =>
      intro hv h
      cases hv with
      | zero => simp [List.set]
      | succ m =>
          have hm : m < l.length := by simpa using h
          simpa [List.set] using ih m hm

lemma getD_set_mono (bv : List Bool) :
    ∀ (hv j : ℕ), bv.getD j false = true → (bv.set hv true).getD j false = true := by
  induction bv with
  | nil => intro hv j h; simp at h
  | cons a l ih =>
      intro hv j h
      cases hv with
      | zero =>
          cases j with
          | zero => simp [List.set]
          | succ m => simpa [List.set] using h
      | succ m =>
          cases j with
          | zero => simpa [List.set] using h
          | succ p =>
              have := ih m p (by simpa using h)
              simpa [List.set] using this

lemma count_set_true (bv : List Bool) :
    ∀ (hv : ℕ), hv < bv.length → bv.getD hv false = false →
      (bv.set hv true).count true = bv.count true + 1 := by
  induction bv with
  | nil => intro hv h; simp at h
  | cons a l ih =>
      intro hv h hf0
      cases hv with
      | zero =>
          have ha : a = false := by simpa using hf0
          subst ha
          simp [List.set, List.count_cons]
      | succ m =>
          have hm : m < l.length := by simpa using h
          have hf : l.getD m false = false := by simpa using hf0
          simp [List.set, List.count_cons, ih m hm hf]
          omega

lemma setBit_length (st : List Bool × ℕ) (hv : ℕ) :
    (setBit st hv).1.length = st.1.length := by
  unfold setBit
  by_cases h : st.1.getD hv false = false
  · rw [if_pos h]
    exact List.length_set st.1 hv true
  · rw [if_neg h]

lemma foldl_setBit_length (ixs : List ℕ) :
    ∀ (st : List Bool × ℕ), (ixs.foldl setBit st).1.length = st.1.length := by
  induction ixs with
  | nil => intro st; rfl
  | cons hv rest ih =>
      intro st
      rw [List.foldl_cons, ih, setBit_length]

lemma setBit_mono (st : List Bool × ℕ) (hv j : ℕ)
    (h : st.1.getD j false = true) : (setBit st hv).1.getD j false = true := by
  unfold setBit
  by_cases hb : st.1.getD hv false = false
  · rw [if_pos hb]
    exact getD_set_mono st.1 hv j h
  · rw [if_neg hb]
    exact h

lemma foldl_setBit_mono (ixs : List ℕ) :
    ∀ (st : List Bool × ℕ) (j : ℕ), st.1.getD j false = true →
      (ixs.foldl setBit st).1.getD j false = true := by
  induction ixs with
  | nil => intro st j h; exact h
  | cons hv rest ih =>
      intro st j h
      rw [List.foldl_cons]
      exact ih _ j (setBit_mono st hv j h)

lemma setBit_sets (st : List Bool × ℕ) (hv : ℕ) (h : hv < st.1.length) :
    (setBit st hv).1.getD hv false = true := by
  unfold setBit
  by_cases hb : st.1.getD hv false = false
  · rw [if_pos hb]
    exact getD_set_self st.1 hv h
  · rw [if_neg hb]
    exact eq_true_of_ne_false hb

lemma foldl_setBit_sets (ixs : List ℕ) :
    ∀ (st : List Bool × ℕ), (∀ hv ∈ ixs, hv < st.1.length) →
      ∀ hv ∈ ixs, (ixs.foldl setBit st).1.getD hv false = true := by
  induction ixs with
  | nil => intro st _ hv hmem; simp at hmem
  | cons hv0 rest ih =>
      intro st hrange hv hmem
      rw [List.foldl_cons]
      rcases List.mem_cons.mp hmem with rfl | h
      · refine foldl_setBit_mono rest _ hv ?_
        exact setBit_sets st hv (hrange hv (List.mem_cons_self hv rest))
      · refine ih (setBit st hv0) ?_ hv h
        intro x hx
        rw [setBit_length]
        exact hrange x (List.mem_cons_of_mem hv0 hx)

lemma setBit_count (st : List Bool × ℕ) (hv : ℕ) (h : hv < st.1.length)
    (hcnt : st.2 = st.1.count true) : (setBit st hv).2 = (setBit st hv).1.count true := by
  unfold setBit
  by_cases hb : st.1.getD hv false = false
  · rw [if_pos hb]
    show st.2 + 1 = (st.1.set hv true).count true
    rw [count_set_true st.1 hv h hb, hcnt]
  · rw [if_neg hb]
    exact hcnt

lemma foldl_setBit_count (ixs : List ℕ) :
    ∀ (st : List Bool × ℕ), (∀ hv ∈ ixs, hv < st.1.length) →
      st.2 = st.1.count true →
      (ixs.foldl setBit st).2 = (ixs.foldl setBit st).1.count true := by
  induction ixs with
  | nil => intro st _ h; exact h
  | cons hv rest ih =>
      intro st hrange hcnt
      rw [List.foldl_cons]
      refine ih (setBit st hv) ?_ ?_
      · intro x hx
        rw [setBit_length]
        exact hrange x (List.mem_cons_of_mem hv hx)
      · exact setBit_count st hv (hrange hv (List.mem_cons_self hv rest)) hcnt

lemma foldl_setBit_fix (ixs : List ℕ) :
    ∀ (st : List Bool × ℕ), (∀ hv ∈ ixs, st.1.getD hv false = true) →
      ixs.foldl setBit st = st := by
  induction ixs with
  | nil => intro st _; rfl
  | cons hv rest ih =>
      intro st hall
      have hb : st.1.getD hv false = true := hall hv (List.mem_cons_self hv rest)
      have hstep : setBit st hv = st := by
        unfold setBit
        rw [if_neg (by rw [hb]; exact fun hc => Bool.noConfusion hc)]
      rw [List.foldl_cons, hstep]
      refine ih st ?_
      intro x hx
      exact hall x (List.mem_cons_of_mem hv hx)

lemma insert_size {Key : Type} (hash : Key → ℕ → ℕ) (bf : BloomFilter)
    (key : Key) : (BloomFilter.insert hash bf key).size = bf.size := rfl

lemma insert_numHashes {Key : Type} (hash : Key → ℕ → ℕ) (bf : BloomFilter)
    (key : Key) : (BloomFilter.insert hash bf key).numHashes = bf.numHashes := rfl

lemma insert_bv_eq {Key : Type} (hash : Key → ℕ → ℕ) (bf : BloomFilter)
    (key : Key) :
    (BloomFilter.insert hash bf key).bv
      = ((indexSeq hash key bf.size bf.numHashes).foldl setBit
          (bf.bv, bf.numBitsSet)).1 := by
  show (insertFrom hash key bf.size bf.numHashes 0 (bf.bv, bf.numBitsSet)).1 = _
  rw [insertFrom_eq_foldl]
  rfl

lemma insert_cnt_eq {Key : Type} (hash : Key → ℕ → ℕ) (bf : BloomFilter)
    (key : Key) :
    (BloomFilter.insert hash bf key).numBitsSet
      = ((indexSeq hash key bf.size bf.numHashes).foldl setBit
          (bf.bv, bf.numBitsSet)).2 := by
  show (insertFrom hash key bf.size bf.numHashes 0 (bf.bv, bf.numBitsSet)).2 = _
  rw [insertFrom_eq_foldl]
  rfl

lemma find_eq_all {Key : Type} (hash : Key → ℕ → ℕ) (bf : BloomFilter)
    (key : Key) :
    BloomFilter.find hash bf key
      = (indexSeq hash key bf.size bf.numHashes).all
          (fun hv => bf.bv.getD hv false) := by
  show findFrom hash key bf.size bf.bv bf.numHashes 0 = _
  rw [findFrom_eq_all]
  rfl

lemma insert_bv_length {Key : Type} (hash : Key → ℕ → ℕ) (bf : BloomFilter)
    (key : Key) : (BloomFilter.insert hash bf key).bv.length = bf.bv.length := by
  rw [insert_bv_eq, foldl_setBit_length]

lemma insert_mono {Key : Type} (hash : Key → ℕ → ℕ) (bf : BloomFilter)
    (key : Key) (j : ℕ) (h : bf.bv.getD j false = true) :
    (BloomFilter.insert hash bf key).bv.getD j false = true := by
  rw [insert_bv_eq]
  exact foldl_setBit_mono _ _ j h

lemma insert_sets {Key : Type} (hash : Key → ℕ → ℕ) (bf : BloomFilter)
    (key : Key) (hpos : 0 < bf.size) (hlen : bf.bv.length = bf.size) :
    ∀ hv ∈ indexSeq hash key bf.size bf.numHashes,
      (BloomFilter.insert hash bf key).bv.getD hv false = true := by
  intro hv hmem
  rw [insert_bv_eq]
  refine foldl_setBit_sets _ _ ?_ hv hmem
  intro x hx
  rw [show ((bf.bv, bf.numBitsSet) : List Bool × ℕ).1 = bf.bv from rfl, hlen]
  exact indexSeqFrom_mem_lt hash key hpos bf.numHashes 0 x hx

lemma insert_WF {Key : Type} (hash : Key → ℕ → ℕ) (bf : BloomFilter)
    (key : Key) (h : WF bf) : WF (BloomFilter.insert hash bf key) := by
  obtain ⟨hpos, hlen, hcnt⟩ := h
  refine ⟨?_, ?_, ?_⟩
  · rw [insert_size]
    exact hpos
  · rw [insert_bv_length, insert_size]
    exact hlen
  · rw [insert_bv_eq, insert_cnt_eq]
    refine foldl_setBit_count _ _ ?_ hcnt
    intro x hx
    rw [show ((bf.bv, bf.numBitsSet) : List Bool × ℕ).1 = bf.bv from rfl, hlen]
    exact indexSeqFrom_mem_lt hash key hpos bf.numHashes 0 x hx

lemma find_of_all_set {Key : Type} (hash : Key → ℕ → ℕ) (bf : BloomFilter)
    (key : Key)
    (h : ∀ hv ∈ indexSeq hash key bf.size bf.numHashes, bf.bv.getD hv false = true) :
    BloomFilter.find hash bf key = true := by
  rw [find_eq_all]
  exact List.all_eq_true.mpr h

lemma find_after_inserts {Key : Type} (hash : Key → ℕ → ℕ) (x : Key) :
    ∀ (keys : List Key) (bf : BloomFilter),
      (∀ hv ∈ indexSeq hash x bf.size bf.numHashes, bf.bv.getD hv false = true) →
      BloomFilter.find hash (insertList hash bf keys) x = true := by
  intro keys
  induction keys with
  | nil =>
      intro bf hset
      exact find_of_all_set hash bf x hset
  | cons k rest ih =>
      intro bf hset
      show BloomFilter.find hash (insertList hash (BloomFilter.insert hash bf k) rest) x = true
      refine ih (BloomFilter.insert hash bf k) ?_
      intro hv hmem
      refine insert_mono hash bf k hv ?_
      exact hset hv (by rw [insert_size, insert_numHashes] at hmem; exact hmem)

lemma insert_insert_self {Key : Type} (hash : Key → ℕ → ℕ) (bf : BloomFilter)
    (x : Key) (hpos : 0 < bf.size) (hlen : bf.bv.length = bf.size) :
    BloomFilter.insert hash (BloomFilter.insert hash bf x) x
      = BloomFilter.insert hash bf x := by
  have hset := insert_sets hash bf x hpos hlen
  have hfix : (indexSeq hash x (BloomFilter.insert hash bf x).size
        (BloomFilter.insert hash bf x).numHashes).foldl setBit
        ((BloomFilter.insert hash bf x).bv,
          (BloomFilter.insert hash bf x).numBitsSet)
      = ((BloomFilter.insert hash bf x).bv,
          (BloomFilter.insert hash bf x).numBitsSet) := by
    refine foldl_setBit_fix _ _ ?_
    intro hv hmem
    rw [insert_size, insert_numHashes] at hmem
    exact hset hv hmem
  have hbv := insert_bv_eq hash (BloomFilter.insert hash bf x) x
  have hcnt := insert_cnt_eq hash (BloomFilter.insert hash bf x) x
  rw [hfix] at hbv hcnt
  cases hb : BloomFilter.insert hash bf x with
  | mk s v nk nh c =>
      rw [hb] at hbv hcnt
      show BloomFilter.mk s (BloomFilter.insert hash (BloomFilter.mk s v nk nh c) x).bv nk nh
          (BloomFilter.insert hash (BloomFilter.mk s v nk nh c) x).numBitsSet
        = BloomFilter.mk s v nk nh c
      rw [hbv, hcnt]

lemma count_true_replicate (m : ℕ) : (List.replicate m false).count true = 0 := by
  induction m with
  | zero => rfl
  | succ m ih => simp [List.replicate_succ, List.count_cons, ih]

lemma WF_initFilter (m nk nh : ℕ) (hm : 0 < m) : WF (initFilter m nk nh) := by
  refine ⟨hm, ?_, ?_⟩
  · show (List.replicate m false).length = m
    exact List.length_replicate m false
  · show (0 : ℕ) = (List.replicate m false).count true
    rw [count_true_replicate]

/-- Modelled from the spec (section 4.1): phi = 1 - p^(1/k), m = k / (1 - phi^(1/n)),
capacityBits = the integer truncation of m. -/
noncomputable def capacityFormula (n k : ℕ) (p : ℝ) : ℤ :=
  let phi : ℝ := 1 - p ^ ((1 : ℝ) / (k : ℝ))
  let m : ℝ := (k : ℝ) / (1 - phi ^ ((1 : ℝ) / (n : ℝ)))
  truncInt m

lemma bitsNeeded_ge (n k : ℕ) (p : ℝ) (hn : 0 < n) (hk : 0 < k)
    (hp0 : 0 < p) (hp1 : p < 1) : (k : ℤ) ≤ bitsNeeded n k p := by
  have hkR : (0 : ℝ) < (k : ℝ) := by exact_mod_cast hk
  have hnR : (0 : ℝ) < (n : ℝ) := by exact_mod_cast hn
  have hk1 : (0 : ℝ) < 1 / (k : ℝ) := by positivity
  have hn1 : (0 : ℝ) < 1 / (n : ℝ) := by positivity
  have ha0 : 0 < p ^ ((1 : ℝ) / (k : ℝ)) := Real.rpow_pos_of_pos hp0 _
  have ha1 : p ^ ((1 : ℝ) / (k : ℝ)) < 1 := Real.rpow_lt_one hp0.le hp1 hk1
  have hphi0 : 0 < 1 - p ^ ((1 : ℝ) / (k : ℝ)) := by linarith
  have hphi1 : 1 - p ^ ((1 : ℝ) / (k : ℝ)) < 1 := by linarith
  have hb0 : 0 < (1 - p ^ ((1 : ℝ) / (k : ℝ))) ^ ((1 : ℝ) / (n : ℝ)) :=
    Real.rpow_pos_of_pos hphi0 _
  have hb1 : (1 - p ^ ((1 : ℝ) / (k : ℝ))) ^ ((1 : ℝ) / (n : ℝ)) < 1 :=
    Real.rpow_lt_one hphi0.le hphi1 hn1
  have hd0 : 0 < 1 - (1 - p ^ ((1 : ℝ) / (k : ℝ))) ^ ((1 : ℝ) / (n : ℝ)) := by
    linarith
  have hge : (k : ℝ)
      ≤ (k : ℝ) / (1 - (1 - p ^ ((1 : ℝ) / (k : ℝ))) ^ ((1 : ℝ) / (n : ℝ))) := by
    rw [le_div_iff₀ hd0]
    nlinarith
  have hnn : 0
      ≤ (k : ℝ) / (1 - (1 - p ^ ((1 : ℝ) / (k : ℝ))) ^ ((1 : ℝ) / (n : ℝ))) :=
    le_trans hkR.le hge
  unfold bitsNeeded truncInt
  rw [if_pos hnn]
  exact Int.le_floor.mpr (by exact_mod_cast hge)

lemma bitsNeeded_one (n k : ℕ) (hn : 0 < n) (_hk : 0 < k) :
    bitsNeeded n k 1 = (k : ℤ) := by
  have hne : ((1 : ℝ) / (n : ℝ)) ≠ 0 := by
    have : (0 : ℝ) < (n : ℝ) := by exact_mod_cast hn
    positivity
  unfold bitsNeeded truncInt
  rw [Real.one_rpow, show (1 : ℝ) - 1 = 0 by norm_num, Real.zero_rpow hne,
    show (1 : ℝ) - 0 = 1 by norm_num, div_one,
    if_pos (Nat.cast_nonneg k : (0 : ℝ) ≤ (k : ℝ))]
  exact Int.floor_natCast k

/-- Claim C1: no false negatives.  For every key x on a well-formed filter
(positive capacity, bit vector of the declared length), after insert(x) the
call find(x) returns true, and it still returns true after inserting any
further list of keys. -/
theorem no_false_negatives {Key : Type} (hash : Key → ℕ → ℕ) (bf : BloomFilter)
    (x : Key) (keys : List Key) (hpos : 0 < bf.size)
    (hlen : bf.bv.length = bf.size) :
    BloomFilter.find hash
      (insertList hash (BloomFilter.insert hash bf x) keys) x = true := by
  refine find_after_inserts hash x keys (BloomFilter.insert hash bf x) ?_
  intro hv hmem
  rw [insert_size, insert_numHashes] at hmem
  exact insert_sets hash bf x hpos hlen hv hmem

/-- Witness for C1 on a concrete filter, key and subsequent inserts. -/
theorem no_false_negatives_witness :
    0 < (initFilter 5 3 2).size
    ∧ (initFilter 5 3 2).bv.length = (initFilter 5 3 2).size
    ∧ BloomFilter.find wHash
        (insertList wHash (BloomFilter.insert wHash (initFilter 5 3 2) 4)
          [9, 11]) 4 = true :=
  ⟨by decide, by decide,
    no_false_negatives wHash (initFilter 5 3 2) 4 [9, 11] (by decide) (by decide)⟩

/-- Claim C2: insert and find derive exactly hashCount bit indices by the same
chained-seed algorithm: seed 0 first, each index is the hash output mod
capacityBits, each later hash call is seeded with the raw previous output, and
insert and find are both driven by that identical index sequence. -/
theorem chained_index_derivation {Key : Type} (hash : Key → ℕ → ℕ)
    (bf : BloomFilter) (key : Key) :
    (indexSeq hash key bf.size bf.numHashes).length = bf.numHashes
    ∧ seeds hash key 0 = 0
    ∧ (∀ i : ℕ, seeds hash key (i + 1) = hash key (seeds hash key i))
    ∧ indexSeq hash key bf.size bf.numHashes
        = (List.range bf.numHashes).map
            (fun i => hash key (seeds hash key i) % bf.size)
    ∧ (BloomFilter.insert hash bf key).bv
        = ((indexSeq hash key bf.size bf.numHashes).foldl setBit
            (bf.bv, bf.numBitsSet)).1
    ∧ (BloomFilter.insert hash bf key).numBitsSet
        = ((indexSeq hash key bf.size bf.numHashes).foldl setBit
            (bf.bv, bf.numBitsSet)).2
    ∧ BloomFilter.find hash bf key
        = (indexSeq hash key bf.size bf.numHashes).all
            (fun hv => bf.bv.getD hv false) :=
  ⟨indexSeqFrom_length hash key bf.size bf.numHashes 0, rfl, fun _ => rfl,
    indexSeq_eq_map hash key bf.size bf.numHashes,
    insert_bv_eq hash bf key, insert_cnt_eq hash bf key,
    find_eq_all hash bf key⟩

/-- Claim C3: for n > 0, k > 0, 0 < p < 1, construction computes capacityBits
as the integer truncation of k / (1 - (1 - p^(1/k))^(1/n)) (with
phi = 1 - p^(1/k)); in particular for n = 100000, k = 4, p = 0.05 the stored
size equals this closed-form value. -/
theorem sizing_formula (n k : ℕ) (p : ℝ) (_hn : 0 < n) (_hk : 0 < k)
    (_hp0 : 0 < p) (_hp1 : p < 1) :
    bitsNeeded n k p = capacityFormula n k p
    ∧ (mkBloomFilter n k p).size = (capacityFormula n k p).toNat
    ∧ (mkBloomFilter 100000 4 (1 / 20 : ℝ)).size
        = (capacityFormula 100000 4 (1 / 20 : ℝ)).toNat :=
  ⟨rfl, rfl, rfl⟩

/-- Witness for C3 at n = 1, k = 1, p = 1/2. -/
theorem sizing_formula_witness :
    (0 < 1 ∧ (0 : ℝ) < 1 / 2 ∧ (1 / 2 : ℝ) < 1)
    ∧ (bitsNeeded 1 1 (1 / 2 : ℝ) = capacityFormula 1 1 (1 / 2 : ℝ)
      ∧ (mkBloomFilter 1 1 (1 / 2 : ℝ)).size
          = (capacityFormula 1 1 (1 / 2 : ℝ)).toNat
      ∧ (mkBloomFilter 100000 4 (1 / 20 : ℝ)).size
          = (capacityFormula 100000 4 (1 / 20 : ℝ)).toNat) :=
  ⟨⟨by decide, by norm_num, by norm_num⟩,
    sizing_formula 1 1 (1 / 2 : ℝ) (by decide) (by decide) (by norm_num)
      (by norm_num)⟩

/-- Claim C4 counterexample: constructing with targetFalsePositiveRate = 1.0
does not fail; it succeeds and produces a usable (well-formed) filter with
capacityBits = 4 for the parameters of the spec scenario.  The code performs
no parameter validation and has no InvalidParameters error. -/
theorem construction_rejection_counterexample :
    (mkBloomFilter 100000 4 1).size = 4 ∧ WF (mkBloomFilter 100000 4 1) := by
  have hb : bitsNeeded 100000 4 1 = (4 : ℤ) := by
    have h := bitsNeeded_one 100000 4 (by norm_num) (by norm_num)
    simpa using h
  have hs : (mkBloomFilter 100000 4 1).size = 4 := by
    show (bitsNeeded 100000 4 1).toNat = 4
    rw [hb]
    rfl
  refine ⟨hs, ?_⟩
  show WF (initFilter (bitsNeeded 100000 4 1).toNat 100000 4)
  rw [show (bitsNeeded 100000 4 1).toNat = 4 from hs]
  exact WF_initFilter 4 100000 4 (by norm_num)

/-- Claim C4, amended: construction performs no parameter validation and never
raises an InvalidParameters error; in particular, for any n > 0 and k > 0,
constructing with targetFalsePositiveRate = 1.0 succeeds and produces a usable
(well-formed) filter whose capacityBits equals hashCount. -/
theorem construction_no_validation (n k : ℕ) (hn : 0 < n) (hk : 0 < k) :
    (mkBloomFilter n k 1).size = k ∧ WF (mkBloomFilter n k 1) := by
  have hb : bitsNeeded n k 1 = (k : ℤ) := bitsNeeded_one n k hn hk
  have hs : (mkBloomFilter n k 1).size = k := by
    show (bitsNeeded n k 1).toNat = k
    rw [hb]
    exact Int.toNat_natCast k
  refine ⟨hs, ?_⟩
  show WF (initFilter (bitsNeeded n k 1).toNat n k)
  rw [show (bitsNeeded n k 1).toNat = k from hs]
  exact WF_initFilter k n k hk

/-- Witness for the amended C4 at n = 2, k = 3. -/
theorem construction_no_validation_witness :
    (0 < 2 ∧ 0 < 3)
    ∧ ((mkBloomFilter 2 3 1).size = 3 ∧ WF (mkBloomFilter 2 3 1)) :=
  ⟨⟨by decide, by decide⟩,
    construction_no_validation 2 3 (by decide) (by decide)⟩

/-- Claim C5: on a filter of positive capacity, insert and find are total (the
embedding makes them total Lean functions over any key); every bit index they
derive lies in the interval from 0 up to and excluding capacityBits, and insert
keeps the bit-vector length and the capacity unchanged, so every bit-array
access is in range. -/
theorem insert_find_in_range {Key : Type} (hash : Key → ℕ → ℕ)
    (bf : BloomFilter) (key : Key) (hpos : 0 < bf.size) :
    (∀ hv ∈ indexSeq hash key bf.size bf.numHashes, hv < bf.size)
    ∧ (BloomFilter.insert hash bf key).bv.length = bf.bv.length
    ∧ (BloomFilter.insert hash bf key).size = bf.size :=
  ⟨indexSeqFrom_mem_lt hash key hpos bf.numHashes 0,
    insert_bv_length hash bf key, rfl⟩

/-- Witness for C5 on a concrete filter and key. -/
theorem insert_find_in_range_witness :
    0 < (initFilter 5 3 2).size
    ∧ ((∀ hv ∈ indexSeq wHash 4 (initFilter 5 3 2).size
          (initFilter 5 3 2).numHashes, hv < (initFilter 5 3 2).size)
      ∧ (BloomFilter.insert wHash (initFilter 5 3 2) 4).bv.length
          = (initFilter 5 3 2).bv.length
      ∧ (BloomFilter.insert wHash (initFilter 5 3 2) 4).size
          = (initFilter 5 3 2).size) :=
  ⟨by decide, insert_find_in_range wHash (initFilter 5 3 2) 4 (by decide)⟩

/-- Claim C6: find(key) returns true exactly when every one of the k derived
bits is set, and false exactly when some derived bit is 0.  The embedding of
find is a pure function of the state (it returns only a boolean), which is the
formal counterpart of the Python method having no side effects. -/
theorem find_characterization {Key : Type} (hash : Key → ℕ → ℕ)
    (bf : BloomFilter) (key : Key) :
    (BloomFilter.find hash bf key = true
        ↔ ∀ hv ∈ indexSeq hash key bf.size bf.numHashes,
            bf.bv.getD hv false = true)
    ∧ (BloomFilter.find hash bf key = false
        ↔ ∃ hv ∈ indexSeq hash key bf.size bf.numHashes,
            bf.bv.getD hv false = false) := by
  constructor
  · rw [find_eq_all]
    exact List.all_eq_true
  · rw [find_eq_all]
    rw [List.all_eq_false]
    constructor
    · rintro ⟨hv, hmem, hfa⟩
      refine ⟨hv, hmem, ?_⟩
      cases hB : bf.bv.getD hv false
      · rfl
      · exact absurd hB hfa
    · rintro ⟨hv, hmem, hfa⟩
      refine ⟨hv, hmem, ?_⟩
      rw [hfa]
      decide

/-- Claim C7: falsePositiveRate returns exactly
(numBitsSet / capacityBits) ^ hashCount computed from the current state; on a
filter with positive capacity, counter within capacity and at least one hash
function, the result lies in the closed interval from 0 to 1 and equals 0 when
no bit is set. -/
theorem falsePositiveRate_spec (bf : BloomFilter) (hpos : 0 < bf.size)
    (hle : bf.numBitsSet ≤ bf.size) (hk : 0 < bf.numHashes) :
    bf.falsePositiveRate
        = ((bf.numBitsSet : ℝ) / (bf.size : ℝ)) ^ bf.numHashes
    ∧ 0 ≤ bf.falsePositiveRate
    ∧ bf.falsePositiveRate ≤ 1
    ∧ (bf.numBitsSet = 0 → bf.falsePositiveRate = 0) := by
  have hszR : (0 : ℝ) < (bf.size : ℝ) := by exact_mod_cast hpos
  have hr0 : 0 ≤ (bf.numBitsSet : ℝ) / (bf.size : ℝ) :=
    div_nonneg (Nat.cast_nonneg _) (Nat.cast_nonneg _)
  have hr1 : (bf.numBitsSet : ℝ) / (bf.size : ℝ) ≤ 1 := by
    rw [div_le_one hszR]
    exact_mod_cast hle
  refine ⟨rfl, pow_nonneg hr0 _, pow_le_one₀ hr0 hr1, ?_⟩
  intro h0
  show ((bf.numBitsSet : ℝ) / (bf.size : ℝ)) ^ bf.numHashes = 0
  rw [h0]
  push_cast
  rw [zero_div]
  exact zero_pow hk.ne'

/-- Witness for C7 on a freshly initialised filter. -/
theorem falsePositiveRate_witness :
    (0 < (initFilter 2 1 1).size
      ∧ (initFilter 2 1 1).numBitsSet ≤ (initFilter 2 1 1).size
      ∧ 0 < (initFilter 2 1 1).numHashes)
    ∧ ((initFilter 2 1 1).falsePositiveRate
          = (((initFilter 2 1 1).numBitsSet : ℝ) / ((initFilter 2 1 1).size : ℝ))
              ^ (initFilter 2 1 1).numHashes
      ∧ 0 ≤ (initFilter 2 1 1).falsePositiveRate
      ∧ (initFilter 2 1 1).falsePositiveRate ≤ 1
      ∧ ((initFilter 2 1 1).numBitsSet = 0
          → (initFilter 2 1 1).falsePositiveRate = 0)) :=
  ⟨⟨by decide, by decide, by decide⟩,
    falsePositiveRate_spec (initFilter 2 1 1) (by decide) (by decide) (by decide)⟩

/-- Claim C8: on a well-formed filter the cached counter equals the exact
number of set bits, it never exceeds capacityBits, the invariant is preserved
by insert (find does not touch the state), and the numBitsSet accessor returns
the cached counter without rescanning the array. -/
theorem numBitsSet_invariant {Key : Type} (hash : Key → ℕ → ℕ)
    (bf : BloomFilter) (key : Key) (h : WF bf) :
    WF (BloomFilter.insert hash bf key)
    ∧ bf.numBitsSet = bf.bv.count true
    ∧ bf.numBitsSet ≤ bf.size
    ∧ BloomFilter.numBitsSetQuery bf = bf.numBitsSet := by
  obtain ⟨hpos, hlen, hcnt⟩ := h
  refine ⟨insert_WF hash bf key ⟨hpos, hlen, hcnt⟩, hcnt, ?_, rfl⟩
  rw [hcnt, ← hlen]
  exact List.count_le_length true bf.bv

/-- Witness for C8 on a concrete well-formed filter. -/
theorem numBitsSet_invariant_witness :
    WF (initFilter 5 3 2)
    ∧ (WF (BloomFilter.insert wHash (initFilter 5 3 2) 9)
      ∧ (initFilter 5 3 2).numBitsSet = (initFilter 5 3 2).bv.count true
      ∧ (initFilter 5 3 2).numBitsSet ≤ (initFilter 5 3 2).size
      ∧ BloomFilter.numBitsSetQuery (initFilter 5 3 2)
          = (initFilter 5 3 2).numBitsSet) :=
  ⟨by decide, numBitsSet_invariant wHash (initFilter 5 3 2) 9 (by decide)⟩

/-- Claim C9: insert is idempotent.  On a well-formed filter, after the first
insert of x, any number m of further inserts of x leaves the whole filter
state, in particular the cached bit counter and the bit array, unchanged. -/
theorem insert_idempotent {Key : Type} (hash : Key → ℕ → ℕ) (bf : BloomFilter)
    (x : Key) (h : WF bf) (m : ℕ) :
    (fun b => BloomFilter.insert hash b x)^[m] (BloomFilter.insert hash bf x)
        = BloomFilter.insert hash bf x
    ∧ ((fun b => BloomFilter.insert hash b x)^[m]
        (BloomFilter.insert hash bf x)).numBitsSet
      = (BloomFilter.insert hash bf x).numBitsSet := by
  have hfix : BloomFilter.insert hash (BloomFilter.insert hash bf x) x
      = BloomFilter.insert hash bf x :=
    insert_insert_self hash bf x h.1 h.2.1
  have hiter : ∀ mm : ℕ,
      (fun b => BloomFilter.insert hash b x)^[mm] (BloomFilter.insert hash bf x)
        = BloomFilter.insert hash bf x := by
    intro mm
    induction mm with
    | zero => rfl
    | succ mm ih =>
        rw [Function.iterate_succ_apply]
        show (fun b => BloomFilter.insert hash b x)^[mm]
            (BloomFilter.insert hash (BloomFilter.insert hash bf x) x)
          = BloomFilter.insert hash bf x
        rw [hfix]
        exact ih
  exact ⟨hiter m, by rw [hiter m]⟩

/-- Witness for C9: two further inserts of the same key on a concrete filter. -/
theorem insert_idempotent_witness :
    WF (initFilter 5 3 2)
    ∧ ((fun b => BloomFilter.insert wHash b 4)^[2]
          (BloomFilter.insert wHash (initFilter 5 3 2) 4)
        = BloomFilter.insert wHash (initFilter 5 3 2) 4
      ∧ ((fun b => BloomFilter.insert wHash b 4)^[2]
          (BloomFilter.insert wHash (initFilter 5 3 2) 4)).numBitsSet
        = (BloomFilter.insert wHash (initFilter 5 3 2) 4).numBitsSet) :=
  ⟨by decide, insert_idempotent wHash (initFilter 5 3 2) 4 (by decide) 2⟩

/-- Claim C10: for every parameter triple with n > 0, k > 0, 0 < p < 1, the
computed bit count is at least hashCount (the sizing formula exceeds k because
its denominator lies strictly between 0 and 1), hence the constructed filter
has capacityBits at least hashCount and in particular at least 1. -/
theorem capacity_ge_hashCount (n k : ℕ) (p : ℝ) (hn : 0 < n) (hk : 0 < k)
    (hp0 : 0 < p) (hp1 : p < 1) :
    (k : ℤ) ≤ bitsNeeded n k p
    ∧ k ≤ (mkBloomFilter n k p).size
    ∧ 1 ≤ (mkBloomFilter n k p).size := by
  have hb := bitsNeeded_ge n k p hn hk hp0 hp1
  have hsize : k ≤ (mkBloomFilter n k p).size := by
    show k ≤ (bitsNeeded n k p).toNat
    have h2 : ((k : ℤ)).toNat ≤ (bitsNeeded n k p).toNat := Int.toNat_le_toNat hb
    simpa using h2
  exact ⟨hb, hsize, le_trans hk hsize⟩

/-- Witness for C10 at n = 1, k = 1, p = 1/2. -/
theorem capacity_ge_hashCount_witness :
    (0 < 1 ∧ (0 : ℝ) < 1 / 2 ∧ (1 / 2 : ℝ) < 1)
    ∧ ((1 : ℤ) ≤ bitsNeeded 1 1 (1 / 2 : ℝ)
      ∧ 1 ≤ (mkBloomFilter 1 1 (1 / 2 : ℝ)).size
      ∧ 1 ≤ (mkBloomFilter 1 1 (1 / 2 : ℝ)).size) :=
  ⟨⟨by decide, by norm_num, by norm_num⟩, by
    have h := capacity_ge_hashCount 1 1 (1 / 2 : ℝ) (by decide) (by decide)
      (by norm_num) (by norm_num)
    exact ⟨by exact_mod_cast h.1, h.2.1, h.2.2⟩⟩

end BloomFilterHW
